import Mathlib

/-!
Verification development for the `cert_requests` repository.

The repository's request-construction logic (shared, near-verbatim, by
`src/csr_generator.js` and the variants in `src/unnamed/part_000` ..
`part_003`) is embedded shallowly here.  JavaScript strings are modelled
as lists of characters (`Str`); `String.prototype.trim` becomes `trim`,
`String.prototype.split(sep)` becomes `splitOnChar`, and the straight-line
body of `generateCSR` is factored into the normalizer, the request builder
and the filename computation, each translated from the cited lines of the
source.  Key generation, ASN.1 encoding and the DOM are outside the
embedded core, exactly as in the specification's scope.
-/

namespace CertRequests

/-- Characters removed by the JavaScript `trim()` calls of the source
(the ASCII whitespace characters; the inputs of interest contain no
exotic Unicode space). -/
def isJsSpace (c : Char) : Bool :=
  c = ' ' || c = '\t' || c = '\n' || c = '\r' || c = '\x0B' || c = '\x0C'

/-- A JavaScript string, modelled as its list of characters. -/
abbrev Str := List Char

/-- Model of `s.trim()`: drop leading and trailing whitespace. -/
def trim (s : Str) : Str :=
  ((s.dropWhile isJsSpace).reverse.dropWhile isJsSpace).reverse

/-- Model of `s.split(sep)` for a single-character separator, as in
`sansInput.split(',')` and `fqdn.split('.')` of the source: splitting the
empty string yields one empty token, matching JavaScript. -/
def splitOnChar (sep : Char) : Str → List Str
  | [] => [[]]
  | c :: rest =>
    if c = sep then [] :: splitOnChar sep rest
    else
      match splitOnChar sep rest with
      | [] => [[c]]
      | t :: ts => (c :: t) :: ts

/-- The one validation error the source can raise: the early return at
`src/csr_generator.js` lines 31-35 (`if (!fqdn)`), the only `return`
before any work happens. -/
inductive ValidationError where
  | MissingFqdn
deriving DecidableEq

/-- Output of the input normalizer: the trimmed FQDN and the cleaned
extra-SAN tokens. -/
structure Normalized where
  fqdn : Str
  extraSans : List Str
deriving DecidableEq

/-- Model of the SAN-text cleaning of `src/csr_generator.js` lines 28 and
69-74: the raw text is trimmed (line 28); when non-empty it is split on
commas, each token trimmed, and tokens of zero length dropped (line 70:
`sansInput.split(',').map(s => s.trim()).filter(s => s.length > 0)`). -/
def extraSansOf (sansRaw : Str) : List Str :=
  if trim sansRaw = [] then []
  else
    ((splitOnChar ',' (trim sansRaw)).map trim).filter fun t => decide (0 < t.length)

/-- The input normalizer, from `src/csr_generator.js` lines 27-35 and
69-74: trim the FQDN, fail when it is empty, clean the SAN text. -/
def normalize (fqdnRaw sansRaw : Str) : Except ValidationError Normalized :=
  if trim fqdnRaw = [] then .error .MissingFqdn
  else .ok { fqdn := trim fqdnRaw, extraSans := extraSansOf sansRaw }

/-- X.500 attribute types used in the subject DN.  `src/csr_generator.js`
names them `countryName` .. `commonName`; the forge variant at
`src/unnamed/part_003` lines 62-68 uses the standard short aliases
`C`, `ST`, `L`, `O`, `OU`, `E`, `CN` for the same attribute types. -/
inductive AttrName where
  | countryName
  | stateOrProvinceName
  | localityName
  | organizationName
  | organizationalUnitName
  | emailAddress
  | commonName
deriving DecidableEq

/-- The backend-neutral request descriptor produced by the builder. -/
structure CsrRequestDescriptor where
  subject : List (AttrName × Str)
  sans : List Str
  signatureAlgorithm : Str
  keyBits : Nat
deriving DecidableEq

/-- The request builder, from `src/csr_generator.js` lines 50-92: the
hardcoded subject attributes (lines 52-64), the SAN list seeded with the
FQDN (line 67) and extended with the extra tokens (lines 69-74), and the
fixed `sigalg` and key size (lines 42 and 88). -/
def build (fqdn : Str) (extraSans : List Str) : CsrRequestDescriptor :=
  { subject :=
      [ (.countryName, "US".toList)
      , (.stateOrProvinceName, "MA".toList)
      , (.localityName, "Boston".toList)
      , (.organizationName, "Trustees of Boston College".toList)
      , (.organizationalUnitName, "BC".toList)
      , (.emailAddress, "itsstaff.ops@bc.edu".toList)
      , (.commonName, fqdn) ]
    sans := fqdn :: extraSans
    signatureAlgorithm := "SHA256withRSA".toList
    keyBits := 2048 }

/-- Normalize-then-build: the descriptor the source assembles before
handing it to the cryptographic backend. -/
def generateDescriptor (fqdnRaw sansRaw : Str) :
    Except ValidationError CsrRequestDescriptor :=
  (normalize fqdnRaw sansRaw).map fun n => build n.fqdn n.extraSans

/-- Model of `fqdn.split('.')[0]` (`src/csr_generator.js` line 98). -/
def baseName (fqdn : Str) : Str :=
  (splitOnChar '.' fqdn).headD []

/-- Decimal rendering of the year number interpolated into the template
literals of `src/csr_generator.js` lines 100-101. -/
def yearChars (year : Nat) : Str :=
  (toString year).toList

/-- Model of the key filename template of `src/csr_generator.js` line 100.
The `year` argument stands for the value `new Date().getFullYear()` read
from the clock at generation time. -/
def keyFileName (fqdn : Str) (year : Nat) : Str :=
  baseName fqdn ++ ('_' :: yearChars year) ++ ".key".toList

/-- Model of the CSR filename template of `src/csr_generator.js` line 101. -/
def csrFileName (fqdn : Str) (year : Nat) : Str :=
  baseName fqdn ++ ('_' :: yearChars year) ++ ".csr".toList

/-- Everything `generateCSR` produces past the validation gate: the
descriptor and the two artifact names.  On validation failure the source
returns before any key material, descriptor or artifact exists, which the
`Option` models. -/
structure GeneratedArtifacts where
  descriptor : CsrRequestDescriptor
  keyFile : Str
  csrFile : Str
deriving DecidableEq

/-- The full core of `generateCSR` (`src/csr_generator.js` lines 27-102):
validate, build the descriptor, compute the artifact names.  `year` stands
for `new Date().getFullYear()`. -/
def generateCSR (fqdnRaw sansRaw : Str) (year : Nat) : Option GeneratedArtifacts :=
  match normalize fqdnRaw sansRaw with
  | .error _ => none
  | .ok n =>
      some { descriptor := build n.fqdn n.extraSans
             keyFile := keyFileName n.fqdn year
             csrFile := csrFileName n.fqdn year }

/-- The normalize-and-build stage of the jsrsasign variant, straight-line
from `src/csr_generator.js` lines 27-74: trimmed inputs, the `!fqdn`
early return, the `subject` array literal and the `sanList` seeded with
the FQDN and extended by the split-trim-filter pipeline.  The result pairs
the subject attribute sequence with the ordered SAN name sequence. -/
def jsrsasignStage (fqdnRaw sansRaw : Str) :
    Option (List (AttrName × Str) × List Str) :=
  let fqdn := trim fqdnRaw
  let sansInput := trim sansRaw
  if fqdn = [] then none
  else
    let subject : List (AttrName × Str) :=
      [ (.countryName, "US".toList)
      , (.stateOrProvinceName, "MA".toList)
      , (.localityName, "Boston".toList)
      , (.organizationName, "Trustees of Boston College".toList)
      , (.organizationalUnitName, "BC".toList)
      , (.emailAddress, "itsstaff.ops@bc.edu".toList)
      , (.commonName, fqdn) ]
    let sanList :=
      fqdn ::
        (if sansInput = [] then []
         else ((splitOnChar ',' sansInput).map trim).filter fun s =>
           decide (0 < s.length))
    some (subject, sanList)

/-- The normalize-and-build stage of the forge variants that call
`csr.setSubject` with `name:` attribute objects (`src/unnamed/part_001`
lines 37-77, likewise `part_000` and `part_002`): identical trimming and
validation, the same `subjectAttributes` literal, and `altNamesArray`
seeded with the FQDN as a type-2 (dNSName) entry and extended by the same
split-trim-filter pipeline. -/
def forgeNamedStage (fqdnRaw sansRaw : Str) :
    Option (List (AttrName × Str) × List Str) :=
  let fqdn := trim fqdnRaw
  let sansInput := trim sansRaw
  if fqdn = [] then none
  else
    let subjectAttributes : List (AttrName × Str) :=
      [ (.countryName, "US".toList)
      , (.stateOrProvinceName, "MA".toList)
      , (.localityName, "Boston".toList)
      , (.organizationName, "Trustees of Boston College".toList)
      , (.organizationalUnitName, "BC".toList)
      , (.emailAddress, "itsstaff.ops@bc.edu".toList)
      , (.commonName, fqdn) ]
    let altNamesArray :=
      fqdn ::
        (if sansInput = [] then []
         else ((splitOnChar ',' sansInput).map trim).filter fun s =>
           decide (0 < s.length))
    some (subjectAttributes, altNamesArray)

/-- The normalize-and-build stage of the forge variant that builds the
subject with `csr.subject.add` and short attribute aliases
(`src/unnamed/part_003` lines 32-81): `add('C','US')` .. `add('CN', fqdn)`
append the same attribute types in the same order, and `altNamesArray` is
built exactly as in the other variants. -/
def forgeShortStage (fqdnRaw sansRaw : Str) :
    Option (List (AttrName × Str) × List Str) :=
  let fqdn := trim fqdnRaw
  let sansInput := trim sansRaw
  if fqdn = [] then none
  else
    let subjectAdds : List (AttrName × Str) :=
      [ (.countryName, "US".toList)
      , (.stateOrProvinceName, "MA".toList)
      , (.localityName, "Boston".toList)
      , (.organizationName, "Trustees of Boston College".toList)
      , (.organizationalUnitName, "BC".toList)
      , (.emailAddress, "itsstaff.ops@bc.edu".toList)
      , (.commonName, fqdn) ]
    let altNamesArray :=
      fqdn ::
        (if sansInput = [] then []
         else ((splitOnChar ',' sansInput).map trim).filter fun s =>
           decide (0 < s.length))
    some (subjectAdds, altNamesArray)

/-! ### Basic facts about `splitOnChar` -/

theorem splitOnChar_ne_nil (sep : Char) (s : Str) : splitOnChar sep s ≠ [] := by
  induction s with
  | nil => simp [splitOnChar]
  | cons c rest ih =>
    rw [splitOnChar]
    by_cases h : c = sep
    · simp [h]
    · rw [if_neg h]
      cases hs : splitOnChar sep rest <;> simp

theorem headD_splitOnChar (sep : Char) (s : Str) :
    (splitOnChar sep s).headD [] = s.takeWhile fun c => decide ¬(c = sep) := by
  induction s with
  | nil => simp [splitOnChar]
  | cons c rest ih =>
    rw [splitOnChar]
    by_cases h : c = sep
    · simp [h, List.takeWhile_cons]
    · rw [if_neg h]
      cases hs : splitOnChar sep rest with
      | nil => exact absurd hs (splitOnChar_ne_nil sep rest)
      | cons t ts =>
        rw [hs] at ih
        simp only [List.headD_cons] at ih
        simp [List.takeWhile_cons, h, ih]

theorem not_mem_of_mem_splitOnChar (sep : Char) :
    ∀ s t, t ∈ splitOnChar sep s → sep ∉ t := by
  intro s
  induction s with
  | nil =>
    intro t ht
    simp [splitOnChar] at ht
    simp [ht]
  | cons c rest ih =>
    intro t ht
    rw [splitOnChar] at ht
    by_cases h : c = sep
    · rw [if_pos h] at ht
      rcases List.mem_cons.mp ht with rfl | hmem
      · simp
      · exact ih t hmem
    · rw [if_neg h] at ht
      cases hs : splitOnChar sep rest with
      | nil => exact absurd hs (splitOnChar_ne_nil sep rest)
      | cons t0 ts =>
        rw [hs] at ht
        rcases List.mem_cons.mp ht with rfl | hmem
        · intro hsep
          rcases List.mem_cons.mp hsep with hec | hmem'
          · exact h hec.symm
          · exact ih t0 (hs ▸ List.mem_cons_self t0 ts) hmem'
        · exact ih t (hs ▸ List.mem_cons_of_mem t0 hmem)

theorem mem_of_mem_splitOnChar (sep : Char) :
    ∀ s t, t ∈ splitOnChar sep s → ∀ c ∈ t, c ∈ s := by
  intro s
  induction s with
  | nil =>
    intro t ht
    simp [splitOnChar] at ht
    simp [ht]
  | cons a rest ih =>
    intro t ht c hc
    rw [splitOnChar] at ht
    by_cases h : a = sep
    · rw [if_pos h] at ht
      rcases List.mem_cons.mp ht with rfl | hmem
      · exact absurd hc (List.not_mem_nil c)
      · exact List.mem_cons_of_mem a (ih t hmem c hc)
    · rw [if_neg h] at ht
      cases hs : splitOnChar sep rest with
      | nil => exact absurd hs (splitOnChar_ne_nil sep rest)
      | cons t0 ts =>
        rw [hs] at ht
        rcases List.mem_cons.mp ht with rfl | hmem
        · rcases List.mem_cons.mp hc with rfl | hmem'
          · exact List.mem_cons_self c rest
          · exact List.mem_cons_of_mem a
              (ih t0 (hs ▸ List.mem_cons_self t0 ts) c hmem')
        · exact List.mem_cons_of_mem a
            (ih t (hs ▸ List.mem_cons_of_mem t0 hmem) c hc)

theorem splitOnChar_eq_single (sep : Char) (s : Str) (h : sep ∉ s) :
    splitOnChar sep s = [s] := by
  induction s with
  | nil => rfl
  | cons c rest ih =>
    have hc : ¬ c = sep := fun e => h (by rw [← e]; exact List.mem_cons_self c rest)
    rw [splitOnChar, if_neg hc, ih fun hm => h (List.mem_cons_of_mem c hm)]

/-- How a comma-free prefix enters a split: it is glued onto the first
token. -/
def prependHead (pre : Str) : List Str → List Str
  | [] => [pre]
  | t :: ts => (pre ++ t) :: ts

/-- How a comma-free suffix enters a split: it is glued onto the last
token. -/
def appendLast (post : Str) : List Str → List Str
  | [] => [post]
  | [t] => [t ++ post]
  | t :: ts => t :: appendLast post ts

theorem splitOnChar_append_left (sep : Char) (pre s : Str) (h : sep ∉ pre) :
    splitOnChar sep (pre ++ s) = prependHead pre (splitOnChar sep s) := by
  induction pre with
  | nil =>
    cases hs : splitOnChar sep s with
    | nil => exact absurd hs (splitOnChar_ne_nil sep s)
    | cons t ts => simpa [prependHead] using hs
  | cons c pre ih =>
    have hc : ¬ c = sep := fun e => h (by rw [← e]; exact List.mem_cons_self c pre)
    rw [List.cons_append, splitOnChar, if_neg hc,
      ih fun hm => h (List.mem_cons_of_mem c hm)]
    cases hs : splitOnChar sep s with
    | nil => exact absurd hs (splitOnChar_ne_nil sep s)
    | cons t ts => simp [prependHead]

theorem splitOnChar_append_right (sep : Char) (s post : Str) (h : sep ∉ post) :
    splitOnChar sep (s ++ post) = appendLast post (splitOnChar sep s) := by
  induction s with
  | nil =>
    rw [List.nil_append, splitOnChar_eq_single sep post h]
    rfl
  | cons c s ih =>
    rw [List.cons_append, splitOnChar, splitOnChar, ih]
    by_cases hc : c = sep
    · rw [if_pos hc, if_pos hc]
      cases hs : splitOnChar sep s with
      | nil => exact absurd hs (splitOnChar_ne_nil sep s)
      | cons t ts => rfl
    · rw [if_neg hc, if_neg hc]
      cases hs : splitOnChar sep s with
      | nil => exact absurd hs (splitOnChar_ne_nil sep s)
      | cons t ts =>
        cases ts with
        | nil => rfl
        | cons t' ts' => rfl

theorem appendLast_ne_nil (post : Str) (l : List Str) : appendLast post l ≠ [] := by
  match l with
  | [] => simp [appendLast]
  | [t] => simp [appendLast]
  | t :: t' :: ts => simp [appendLast]

/-! ### Basic facts about `trim` -/

theorem dropWhile_head_false {α} (p : α → Bool) :
    ∀ (l : List α) c t, l.dropWhile p = c :: t → p c = false := by
  intro l
  induction l with
  | nil => intro c t h; simp [List.dropWhile] at h
  | cons a l ih =>
    intro c t h
    rw [List.dropWhile_cons] at h
    by_cases hp : p a
    · rw [if_pos hp] at h; exact ih c t h
    · rw [if_neg hp] at h
      injection h with h1 _
      subst h1
      exact Bool.eq_false_iff.mpr hp

theorem dropWhile_eq_self_of_head {α} (p : α → Bool) (c : α) (t : List α)
    (h : p c = false) : (c :: t).dropWhile p = c :: t := by
  rw [List.dropWhile_cons, if_neg (by simp [h])]

theorem dropWhile_idem {α} (p : α → Bool) (l : List α) :
    (l.dropWhile p).dropWhile p = l.dropWhile p := by
  rcases h : l.dropWhile p with _ | ⟨c, t⟩
  · rfl
  · exact dropWhile_eq_self_of_head p c t (dropWhile_head_false p l c t h)

/-- Shape of a non-degenerate trim: when the leading-whitespace drop leaves
`c :: t`, the trailing drop strips whitespace from the other end only, so
the trimmed string still starts with `c`. -/
theorem exists_trim_cons (s : Str) {c : Char} {t : Str}
    (hd : s.dropWhile isJsSpace = c :: t) :
    ∃ w, (c :: t).reverse.dropWhile isJsSpace = w ++ [c] ∧
      trim s = c :: w.reverse := by
  have hc : isJsSpace c = false := dropWhile_head_false _ s c t hd
  obtain ⟨w, hw⟩ : ∃ w, (c :: t).reverse.dropWhile isJsSpace = w ++ [c] := by
    rw [List.reverse_cons, List.dropWhile_append]
    cases he : (t.reverse.dropWhile isJsSpace).isEmpty with
    | true => exact ⟨[], by simp [List.dropWhile_cons, hc]⟩
    | false => exact ⟨t.reverse.dropWhile isJsSpace, by simp⟩
  refine ⟨w, hw, ?_⟩
  unfold trim
  rw [hd, hw, List.reverse_append]
  rfl

theorem trim_idem (s : Str) : trim (trim s) = trim s := by
  rcases hd : s.dropWhile isJsSpace with _ | ⟨c, t⟩
  · have h0 : trim s = [] := by unfold trim; rw [hd]; rfl
    rw [h0]; rfl
  · have hc : isJsSpace c = false := dropWhile_head_false _ s c t hd
    obtain ⟨w, hw, hts⟩ := exists_trim_cons s hd
    rw [hts]
    unfold trim
    rw [dropWhile_eq_self_of_head _ _ _ hc]
    have hrev : (c :: w.reverse).reverse = w ++ [c] := by simp
    rw [hrev, ← hw, dropWhile_idem, hw, List.reverse_append]
    rfl

theorem trim_eq_nil_iff (s : Str) :
    trim s = [] ↔ ∀ c ∈ s, isJsSpace c = true := by
  constructor
  · intro h
    rcases hd : s.dropWhile isJsSpace with _ | ⟨c, t⟩
    · exact List.dropWhile_eq_nil_iff.mp hd
    · obtain ⟨w, _, hts⟩ := exists_trim_cons s hd
      rw [hts] at h
      exact absurd h (List.cons_ne_nil c w.reverse)
  · intro h
    unfold trim
    rw [List.dropWhile_eq_nil_iff.mpr h]
    rfl

theorem trim_append_left (pre s : Str) (h : ∀ c ∈ pre, isJsSpace c = true) :
    trim (pre ++ s) = trim s := by
  unfold trim
  rw [List.dropWhile_append_of_pos h]

theorem trim_append_right (s post : Str) (h : ∀ c ∈ post, isJsSpace c = true) :
    trim (s ++ post) = trim s := by
  unfold trim
  rcases hd : s.dropWhile isJsSpace with _ | ⟨c, t⟩
  · have hs : ∀ c ∈ s, isJsSpace c = true := List.dropWhile_eq_nil_iff.mp hd
    have hall : (s ++ post).dropWhile isJsSpace = [] := by
      rw [List.dropWhile_eq_nil_iff]
      intro x hx
      rcases List.mem_append.mp hx with h1 | h2
      · exact hs x h1
      · exact h x h2
    rw [hall]
  · have happ : (s ++ post).dropWhile isJsSpace = (c :: t) ++ post := by
      rw [List.dropWhile_append, hd]
      simp
    rw [happ, List.reverse_append,
      List.dropWhile_append_of_pos fun a ha => h a (List.mem_reverse.mp ha)]

/-- Every string splits as all-whitespace prefix, its trim, and
all-whitespace suffix: `trim` removes edge whitespace only and leaves the
inner characters untouched. -/
theorem exists_trim_decomp (s : Str) :
    ∃ pre post, (∀ c ∈ pre, isJsSpace c = true) ∧
      (∀ c ∈ post, isJsSpace c = true) ∧ s = pre ++ trim s ++ post := by
  refine ⟨s.takeWhile isJsSpace,
    ((s.dropWhile isJsSpace).reverse.takeWhile isJsSpace).reverse,
    fun c hc => List.mem_takeWhile_imp hc,
    fun c hc => List.mem_takeWhile_imp (List.mem_reverse.mp hc), ?_⟩
  conv_lhs => rw [← List.takeWhile_append_dropWhile (p := isJsSpace) (l := s)]
  rw [List.append_assoc]
  congr 1
  unfold trim
  conv_lhs => rw [← List.reverse_reverse (s.dropWhile isJsSpace),
    ← List.takeWhile_append_dropWhile (p := isJsSpace)
      (l := (s.dropWhile isJsSpace).reverse)]
  rw [List.reverse_append]

theorem mem_trim {c : Char} {s : Str} (h : c ∈ trim s) : c ∈ s := by
  obtain ⟨pre, post, _, _, hs⟩ := exists_trim_decomp s
  rw [hs]
  simp only [List.mem_append]
  exact Or.inl (Or.inr h)

theorem map_trim_prependHead (pre : Str) (h : ∀ c ∈ pre, isJsSpace c = true)
    (t : Str) (ts : List Str) :
    (prependHead pre (t :: ts)).map trim = (t :: ts).map trim := by
  simp only [prependHead, List.map_cons]
  rw [trim_append_left pre t h]

theorem map_trim_appendLast (post : Str) (h : ∀ c ∈ post, isJsSpace c = true) :
    ∀ l, l ≠ [] → (appendLast post l).map trim = l.map trim := by
  intro l
  induction l with
  | nil => intro h'; exact absurd rfl h'
  | cons t ts ih =>
    intro _
    cases ts with
    | nil =>
      simp only [appendLast, List.map_cons, List.map_nil]
      rw [trim_append_right t post h]
    | cons t' ts' =>
      simp only [appendLast, List.map_cons]
      rw [List.map_cons] at ih
      rw [ih (List.cons_ne_nil t' ts')]

/-- The SAN cleaning of the source trims the whole text before splitting;
this is extensionally the split-trim-filter pipeline applied to the raw
text, because the outer trim only deletes edge whitespace, which the
per-token trims would delete anyway. -/
theorem extraSansOf_eq_direct (sansRaw : Str) :
    extraSansOf sansRaw =
      ((splitOnChar ',' sansRaw).map trim).filter fun t =>
        decide (0 < t.length) := by
  unfold extraSansOf
  by_cases h : trim sansRaw = []
  · rw [if_pos h]
    have hws : ∀ c ∈ sansRaw, isJsSpace c = true := (trim_eq_nil_iff sansRaw).mp h
    have hcomma : ',' ∉ sansRaw := fun hm => absurd (hws ',' hm) (by decide)
    rw [splitOnChar_eq_single ',' sansRaw hcomma]
    simp [h]
  · rw [if_neg h]
    obtain ⟨pre, post, hpre, hpost, hs⟩ := exists_trim_decomp sansRaw
    have hpreC : ',' ∉ pre := fun hm => absurd (hpre ',' hm) (by decide)
    have hpostC : ',' ∉ post := fun hm => absurd (hpost ',' hm) (by decide)
    conv_rhs => rw [hs]
    rw [List.append_assoc, splitOnChar_append_left ',' pre _ hpreC,
      splitOnChar_append_right ',' _ post hpostC]
    rcases hM : appendLast post (splitOnChar ',' (trim sansRaw)) with _ | ⟨t, ts⟩
    · exact absurd hM (appendLast_ne_nil post _)
    · rw [map_trim_prependHead pre hpre t ts, ← hM,
        map_trim_appendLast post hpost _ (splitOnChar_ne_nil ',' (trim sansRaw))]

/-! ### The claims -/

/-- C1: for every trimmed non-empty FQDN `f` and every SAN text `s`, the
SAN list of the descriptor produced by normalize-then-build has `f` as its
first element, and the SAN list is never empty, even when the extra-SAN
sequence is empty. -/
theorem cn_first_san (f s : Str) (h1 : trim f = f) (h2 : f ≠ []) :
    ∃ d, generateDescriptor f s = .ok d ∧ d.sans.head? = some f ∧
      d.sans ≠ [] := by
  refine ⟨build f (extraSansOf s), ?_, rfl, by simp [build]⟩
  unfold generateDescriptor normalize
  rw [h1, if_neg h2]
  rfl

/-- Witness for C1 at the concrete input `x.com` with empty SAN text. -/
theorem cn_first_san_witness :
    ∃ d, generateDescriptor ("x.com".toList) ("".toList) = .ok d ∧
      d.sans.head? = some ("x.com".toList) ∧ d.sans ≠ [] :=
  cn_first_san ("x.com".toList) ("".toList) (by decide) (by decide)

/-- C2: for every FQDN, the built descriptor's subject attributes are
exactly country=US, state=MA, locality=Boston,
organization=Trustees of Boston College, organizational-unit=BC,
email=itsstaff.ops at bc.edu, commonName=fqdn, in that order, with
signatureAlgorithm fixed to SHA256withRSA and keyBits fixed to 2048. -/
theorem fixed_subject_and_policy (f : Str) (es : List Str) :
    (build f es).subject =
      [ (AttrName.countryName, "US".toList)
      , (AttrName.stateOrProvinceName, "MA".toList)
      , (AttrName.localityName, "Boston".toList)
      , (AttrName.organizationName, "Trustees of Boston College".toList)
      , (AttrName.organizationalUnitName, "BC".toList)
      , (AttrName.emailAddress, "itsstaff.ops@bc.edu".toList)
      , (AttrName.commonName, f) ] ∧
    (build f es).signatureAlgorithm = "SHA256withRSA".toList ∧
    (build f es).keyBits = 2048 :=
  ⟨rfl, rfl, rfl⟩

/-- C3: normalize fails if and only if the FQDN is empty after trimming,
the only possible error is MissingFqdn, and on that failure the full
pipeline produces no descriptor or artifact at all. -/
theorem missing_fqdn_iff (f s : Str) (y : Nat) :
    (normalize f s = .error .MissingFqdn ↔ trim f = []) ∧
    ((∃ e, normalize f s = .error e) ↔ trim f = []) ∧
    (generateCSR f s y = none ↔ trim f = []) := by
  by_cases h : trim f = []
  · have hn : normalize f s = .error .MissingFqdn := by
      unfold normalize
      rw [if_pos h]
    refine ⟨by simp [hn, h], ?_, ?_⟩
    · simp only [hn, h, iff_true]
      exact ⟨.MissingFqdn, trivial⟩
    · unfold generateCSR
      rw [hn]
      simp [h]
  · have hn : normalize f s = .ok ⟨trim f, extraSansOf s⟩ := by
      unfold normalize
      rw [if_neg h]
    refine ⟨by simp [hn, h], by simp [hn, h], ?_⟩
    unfold generateCSR
    rw [hn]
    simp [h]

/-- C4: the extra-SAN sequence equals the comma-split of the raw SAN text
with every token trimmed and empty tokens discarded, in original relative
order; consequently a SAN text of only whitespace and commas produces the
empty sequence. -/
theorem san_split_trim_filter (s : Str) :
    extraSansOf s =
      ((splitOnChar ',' s).map trim).filter (fun t => decide (0 < t.length)) ∧
    ((∀ c ∈ s, isJsSpace c = true ∨ c = ',') → extraSansOf s = []) := by
  refine ⟨extraSansOf_eq_direct s, fun h => ?_⟩
  rw [extraSansOf_eq_direct s, List.filter_eq_nil_iff]
  intro t ht
  rw [List.mem_map] at ht
  obtain ⟨t0, ht0, rfl⟩ := ht
  have hws : ∀ c ∈ t0, isJsSpace c = true := by
    intro c hc
    rcases h c (mem_of_mem_splitOnChar ',' s t0 ht0 c hc) with hw | hcomma
    · exact hw
    · exact absurd (hcomma ▸ hc) (not_mem_of_mem_splitOnChar ',' s t0 ht0)
  rw [(trim_eq_nil_iff t0).mpr hws]
  simp

/-- C5 counterexample: a raw FQDN containing a comma passes normalization
unchanged, so the FQDN hostname in the output can contain a comma,
violating the claimed HostName invariant. -/
theorem hostname_comma_cex :
    normalize ("a,b".toList) [] =
      .ok { fqdn := "a,b".toList, extraSans := [] } ∧
    ',' ∈ "a,b".toList :=
  ⟨rfl, by decide⟩

/-- C5 amended: every hostname in the output of normalize is non-empty
after trimming, and every extra SAN token additionally contains no comma;
the FQDN itself is not checked for commas and may contain one. -/
theorem hostname_invariants (f s : Str) (n : Normalized)
    (h : normalize f s = .ok n) :
    trim n.fqdn ≠ [] ∧ ∀ t ∈ n.extraSans, trim t ≠ [] ∧ ',' ∉ t := by
  unfold normalize at h
  by_cases hf : trim f = []
  · rw [if_pos hf] at h
    exact absurd h (by simp)
  · rw [if_neg hf] at h
    injection h with h
    subst h
    refine ⟨by rwa [trim_idem], fun t ht => ?_⟩
    rw [extraSansOf_eq_direct s, List.mem_filter, List.mem_map] at ht
    obtain ⟨⟨t0, ht0, rfl⟩, hlen⟩ := ht
    have hne : trim t0 ≠ [] := by
      intro he
      rw [he] at hlen
      simp at hlen
    refine ⟨by rwa [trim_idem], fun hcomma => ?_⟩
    exact not_mem_of_mem_splitOnChar ',' s t0 ht0 (mem_trim hcomma)

/-- Witness for the amended C5 at `fqdn = x.com`, SAN text `a.com`. -/
theorem hostname_invariants_witness :
    trim ("x.com".toList) ≠ [] ∧
      ∀ t ∈ ["a.com".toList], trim t ≠ [] ∧ ',' ∉ t :=
  hostname_invariants ("x.com".toList) ("a.com".toList)
    { fqdn := "x.com".toList, extraSans := ["a.com".toList] } rfl

/-- C6: the jsrsasign variant, the forge variants using named subject
attributes and the forge variant using short attribute aliases construct
the same subject attribute sequence and the same ordered SAN name
sequence on all inputs: their normalize-and-build stages are
extensionally equal. -/
theorem variants_agree (f s : Str) :
    jsrsasignStage f s = forgeNamedStage f s ∧
    forgeNamedStage f s = forgeShortStage f s :=
  ⟨rfl, rfl⟩

/-- C7: build is deterministic: two invocations on equal inputs yield
field-for-field identical descriptors; the embedded builder reads no
state beyond its arguments. -/
theorem build_deterministic (f g : Str) (es fs : List Str)
    (h1 : f = g) (h2 : es = fs) :
    (build f es).subject = (build g fs).subject ∧
    (build f es).sans = (build g fs).sans ∧
    (build f es).signatureAlgorithm = (build g fs).signatureAlgorithm ∧
    (build f es).keyBits = (build g fs).keyBits := by
  subst h1; subst h2
  exact ⟨rfl, rfl, rfl, rfl⟩

/-- Witness for C7 at the concrete input `x.com` with one extra SAN. -/
theorem build_deterministic_witness :
    (build ("x.com".toList) ["a.com".toList]).subject =
      (build ("x.com".toList) ["a.com".toList]).subject ∧
    (build ("x.com".toList) ["a.com".toList]).sans =
      (build ("x.com".toList) ["a.com".toList]).sans ∧
    (build ("x.com".toList) ["a.com".toList]).signatureAlgorithm =
      (build ("x.com".toList) ["a.com".toList]).signatureAlgorithm ∧
    (build ("x.com".toList) ["a.com".toList]).keyBits =
      (build ("x.com".toList) ["a.com".toList]).keyBits :=
  build_deterministic ("x.com".toList) ("x.com".toList)
    ["a.com".toList] ["a.com".toList] rfl rfl

/-- C8: no deduplication: the builder keeps every occurrence, and entering
the FQDN again in the SAN field yields it twice in the SAN list. -/
theorem san_no_dedup (f : Str) (h1 : trim f ≠ []) (h2 : ',' ∉ trim f) :
    (∀ fq es, (build fq es).sans = fq :: es) ∧
    ∃ d, generateDescriptor f f = .ok d ∧ d.sans = [trim f, trim f] := by
  refine ⟨fun _ _ => rfl, build (trim f) [trim f], ?_, rfl⟩
  unfold generateDescriptor normalize
  rw [if_neg h1]
  have he : extraSansOf f = [trim f] := by
    unfold extraSansOf
    rw [if_neg h1, splitOnChar_eq_single ',' (trim f) h2]
    have hlen : 0 < (trim f).length := List.length_pos.mpr h1
    simp [trim_idem, hlen]
  simp [Except.map, he]

/-- Witness for C8: entering `x.com` as both FQDN and SAN text yields
`x.com` twice in the SAN list. -/
theorem san_no_dedup_witness :
    (∀ fq es, (build fq es).sans = fq :: es) ∧
    ∃ d, generateDescriptor ("x.com".toList) ("x.com".toList) = .ok d ∧
      d.sans = ["x.com".toList, "x.com".toList] :=
  san_no_dedup ("x.com".toList) (by decide) (by decide)

/-- C9: the commonName (and first SAN) of the built descriptor is exactly
the trimmed input FQDN, and the trimmed FQDN is a contiguous substring of
the raw input surrounded only by whitespace: no lowercasing or any other
character change is applied. -/
theorem case_preserved (f s : Str) (h : trim f ≠ []) :
    ∃ d, generateDescriptor f s = .ok d ∧
      d.subject.getLast? = some (AttrName.commonName, trim f) ∧
      d.sans.head? = some (trim f) ∧
      ∃ pre post, (∀ c ∈ pre, isJsSpace c = true) ∧
        (∀ c ∈ post, isJsSpace c = true) ∧ f = pre ++ trim f ++ post := by
  refine ⟨build (trim f) (extraSansOf s), ?_, rfl, rfl, exists_trim_decomp f⟩
  unfold generateDescriptor normalize
  rw [if_neg h]
  rfl

/-- Witness for C9 at the mixed-case input `Host.Example.ORG`: the
commonName keeps the original casing exactly. -/
theorem case_preserved_witness :
    ∃ d, generateDescriptor ("Host.Example.ORG".toList) [] = .ok d ∧
      d.subject.getLast? =
        some (AttrName.commonName, "Host.Example.ORG".toList) ∧
      d.sans.head? = some ("Host.Example.ORG".toList) ∧
      ∃ pre post, (∀ c ∈ pre, isJsSpace c = true) ∧
        (∀ c ∈ post, isJsSpace c = true) ∧
        "Host.Example.ORG".toList =
          pre ++ "Host.Example.ORG".toList ++ post :=
  case_preserved ("Host.Example.ORG".toList) [] (by decide)

/-- C10: the artifact names are the part of the FQDN before its first dot
(the whole FQDN when it has no dot), an underscore, the decimal year, and
the `.key` / `.csr` extension; the generated artifacts carry exactly these
names. -/
theorem artifact_names (f s : Str) (y : Nat) :
    keyFileName f y =
      (f.takeWhile fun c => decide ¬(c = '.')) ++
        ('_' :: yearChars y) ++ ".key".toList ∧
    csrFileName f y =
      (f.takeWhile fun c => decide ¬(c = '.')) ++
        ('_' :: yearChars y) ++ ".csr".toList ∧
    ('.' ∉ f → baseName f = f) ∧
    (∀ a, generateCSR f s y = some a →
      a.keyFile = keyFileName (trim f) y ∧
      a.csrFile = csrFileName (trim f) y) := by
  refine ⟨?_, ?_, fun h => ?_, fun a ha => ?_⟩
  · unfold keyFileName baseName
    rw [headD_splitOnChar]
  · unfold csrFileName baseName
    rw [headD_splitOnChar]
  · unfold baseName
    rw [splitOnChar_eq_single '.' f h]
    rfl
  · unfold generateCSR normalize at ha
    by_cases hf : trim f = []
    · rw [if_pos hf] at ha
      exact absurd ha (by simp)
    · rw [if_neg hf] at ha
      simp only [Option.some.injEq] at ha
      subst ha
      exact ⟨rfl, rfl⟩

end CertRequests
